import Mathlib

/-!
Verification development for the BreezeAPI caching plugin.

The development shallowly embeds the two source files that carry the logic:

* parseDuration.ts: the duration-string scanner (function parseDuration),
  modelled by scanDur / durMatches below.  The JS regex
  (\d+)\s*(mo|month|months|w|week|weeks|d|day|days|h|hour|hours|m|min|minute|minutes|s|sec|second|seconds)
  with flags g and i is modelled by an explicit left-to-right scan: at each
  position, a maximal digit run, then a maximal run of JS whitespace, then the
  first alternative (in the order written in the source) that matches
  case-insensitively.  On failure the scan advances one character, exactly as
  the regex engine retries at the next start position.  Integers are modelled
  as exact naturals.

* the cache middleware (function cacheMiddleware of the current index.ts),
  modelled by runMiddleware below.  Redis, the HTTP framework and JSON are
  external collaborators and are modelled: the store by an oracle giving the
  outcomes of the successive get calls, JSON.parse / JSON.stringify by a small
  value type, connections by numeric identifiers allocated from a counter.
-/

/-- JS regex whitespace for the backslash-s class, restricted to the ASCII
range (the only characters relevant to the claims). -/
def isJsSpace (c : Char) : Bool :=
  c = ' ' || c = '\t' || c = '\n' || c = '\r' || c.toNat = 11 || c.toNat = 12

/-- Value of a run of decimal digits, as computed by parseInt(match, 10). -/
def digitsToNat (l : List Char) : Nat :=
  l.foldl (fun acc c => acc * 10 + (c.toNat - '0'.toNat)) 0

/-- Case-insensitive literal match of a (lowercase) pattern against the head
of the input; returns the remaining input on success. -/
def matchTok : List Char → List Char → Option (List Char)
  | [], rest => some rest
  | _ :: _, [] => none
  | p :: ps, c :: cs => if c.toLower = p then matchTok ps cs else none

/-- The alternation of the source regex, in source order, each token paired
with its conversion factor in milliseconds (month = 30 days, week = 7 days,
day = 86400 s, hour = 3600 s, minute = 60 s, second = 1000 ms). -/
def durAlts : List (List Char × Nat) :=
  [ (['m','o'], 2592000000), (['m','o','n','t','h'], 2592000000),
    (['m','o','n','t','h','s'], 2592000000),
    (['w'], 604800000), (['w','e','e','k'], 604800000),
    (['w','e','e','k','s'], 604800000),
    (['d'], 86400000), (['d','a','y'], 86400000), (['d','a','y','s'], 86400000),
    (['h'], 3600000), (['h','o','u','r'], 3600000),
    (['h','o','u','r','s'], 3600000),
    (['m'], 60000), (['m','i','n'], 60000), (['m','i','n','u','t','e'], 60000),
    (['m','i','n','u','t','e','s'], 60000),
    (['s'], 1000), (['s','e','c'], 1000), (['s','e','c','o','n','d'], 1000),
    (['s','e','c','o','n','d','s'], 1000) ]

/-- First alternative of the list that matches the input, with its factor and
the input remaining after the matched token. -/
def findAltAux : List (List Char × Nat) → List Char → Option (Nat × List Char)
  | [], _ => none
  | (tok, f) :: as, l =>
    match matchTok tok l with
    | some r => some (f, r)
    | none => findAltAux as l

/-- The ordered alternation of the source regex applied to the input. -/
def findAlt (l : List Char) : Option (Nat × List Char) :=
  findAltAux durAlts l

/-- One attempt of the regex at the current position: a nonempty digit run,
optional whitespace, then a unit token.  Returns the integer value, the unit
factor and the remaining input. -/
def tryMatchAt : List Char → Option (Nat × Nat × List Char)
  | [] => none
  | c :: cs =>
    if c.isDigit then
      let ds := List.takeWhile Char.isDigit (c :: cs)
      let r1 := List.dropWhile Char.isDigit (c :: cs)
      let r2 := List.dropWhile isJsSpace r1
      match findAlt r2 with
      | some (f, rest) => some (digitsToNat ds, f, rest)
      | none => none
    else none

theorem matchTok_length {p l r : List Char} (h : matchTok p l = some r) :
    r.length ≤ l.length := by
  induction p generalizing l with
  | nil =>
    simp [matchTok] at h
    simp [h]
  | cons x xs ih =>
    cases l with
    | nil => simp [matchTok] at h
    | cons c cs =>
      by_cases hc : c.toLower = x
      · simp [matchTok, hc] at h
        exact le_trans (ih h) (Nat.le_succ _)
      · simp [matchTok, hc] at h

theorem findAltAux_length {as : List (List Char × Nat)} {l : List Char}
    {f : Nat} {r : List Char} (h : findAltAux as l = some (f, r)) :
    r.length ≤ l.length := by
  induction as with
  | nil => simp [findAltAux] at h
  | cons a as ih =>
    obtain ⟨tok, fac⟩ := a
    cases hm : matchTok tok l with
    | some r0 =>
      simp [findAltAux, hm] at h
      obtain ⟨h1, h2⟩ := h
      subst h2
      exact matchTok_length hm
    | none =>
      simp [findAltAux, hm] at h
      exact ih h

theorem dropWhile_length_le (p : Char → Bool) (l : List Char) :
    (List.dropWhile p l).length ≤ l.length := by
  induction l with
  | nil => simp
  | cons c cs ih =>
    by_cases hc : p c
    · simp [List.dropWhile, hc]
      exact le_trans ih (Nat.le_succ _)
    · simp [List.dropWhile, hc]

theorem tryMatchAt_length {c : Char} {cs : List Char} {v f : Nat}
    {rest : List Char} (h : tryMatchAt (c :: cs) = some (v, f, rest)) :
    rest.length ≤ cs.length := by
  by_cases hc : c.isDigit
  · simp only [tryMatchAt, hc, if_true] at h
    cases hf : findAlt (List.dropWhile isJsSpace
        (List.dropWhile Char.isDigit (c :: cs))) with
    | some fr =>
      obtain ⟨f0, r0⟩ := fr
      simp [hf] at h
      obtain ⟨h1, h2, h3⟩ := h
      subst h3
      have e1 : List.dropWhile Char.isDigit (c :: cs)
          = List.dropWhile Char.isDigit cs := by
        simp [List.dropWhile, hc]
      have l1 : r0.length ≤ (List.dropWhile isJsSpace
          (List.dropWhile Char.isDigit (c :: cs))).length :=
        findAltAux_length hf
      have l2 := dropWhile_length_le isJsSpace
        (List.dropWhile Char.isDigit (c :: cs))
      have l3 := dropWhile_length_le Char.isDigit cs
      rw [e1] at l1 l2
      omega
    | none => simp [hf] at h
  · simp [tryMatchAt, hc] at h

/-- Fuel-indexed version of the scanning loop of parseDuration (the fuel is
only a structural-recursion device; scanDur below instantiates it with enough
fuel and the fuel-irrelevance lemma shows the value does not depend on it). -/
def scanDurF : Nat → List Char → Nat
  | 0, _ => 0
  | _ + 1, [] => 0
  | n + 1, c :: cs =>
    match tryMatchAt (c :: cs) with
    | some (v, f, rest) => v * f + scanDurF n rest
    | none => scanDurF n cs

/-- Fuel-indexed match collector, same scan as scanDurF. -/
def durMatchesF : Nat → List Char → List (Nat × Nat)
  | 0, _ => []
  | _ + 1, [] => []
  | n + 1, c :: cs =>
    match tryMatchAt (c :: cs) with
    | some (v, f, rest) => (v, f) :: durMatchesF n rest
    | none => durMatchesF n cs

theorem scanDurF_congr :
    ∀ m n (l : List Char), l.length < m → l.length < n →
      scanDurF m l = scanDurF n l := by
  intro m
  induction m with
  | zero => intro n l hm; omega
  | succ m ih =>
    intro n l hm hn
    cases n with
    | zero => omega
    | succ n =>
      cases l with
      | nil => rfl
      | cons c cs =>
        simp only [List.length_cons] at hm hn
        cases h : tryMatchAt (c :: cs) with
        | some vfr =>
          obtain ⟨v, f, rest⟩ := vfr
          have hr := tryMatchAt_length h
          simp only [scanDurF, h]
          rw [ih n rest (by omega) (by omega)]
        | none =>
          simp only [scanDurF, h]
          exact ih n cs (by omega) (by omega)

theorem durMatchesF_congr :
    ∀ m n (l : List Char), l.length < m → l.length < n →
      durMatchesF m l = durMatchesF n l := by
  intro m
  induction m with
  | zero => intro n l hm; omega
  | succ m ih =>
    intro n l hm hn
    cases n with
    | zero => omega
    | succ n =>
      cases l with
      | nil => rfl
      | cons c cs =>
        simp only [List.length_cons] at hm hn
        cases h : tryMatchAt (c :: cs) with
        | some vfr =>
          obtain ⟨v, f, rest⟩ := vfr
          have hr := tryMatchAt_length h
          simp only [durMatchesF, h]
          rw [ih n rest (by omega) (by omega)]
        | none =>
          simp only [durMatchesF, h]
          exact ih n cs (by omega) (by omega)

/-- The accumulator loop of parseDuration: total milliseconds of all matches
of the regex, scanned left to right. -/
def scanDur (l : List Char) : Nat :=
  scanDurF (l.length + 1) l

/-- The list of matches of the regex (integer value, unit factor), in the
order found; the same scan as scanDur, collecting instead of summing. -/
def durMatches (l : List Char) : List (Nat × Nat) :=
  durMatchesF (l.length + 1) l

theorem scanDur_nil : scanDur [] = 0 := rfl

theorem scanDur_cons (c : Char) (cs : List Char) :
    scanDur (c :: cs) =
      match tryMatchAt (c :: cs) with
      | some (v, f, rest) => v * f + scanDur rest
      | none => scanDur cs := by
  show scanDurF (cs.length + 1 + 1) (c :: cs) = _
  cases h : tryMatchAt (c :: cs) with
  | some vfr =>
    obtain ⟨v, f, rest⟩ := vfr
    have hr := tryMatchAt_length h
    simp only [scanDurF, h]
    rw [scanDurF_congr (cs.length + 1) (rest.length + 1) rest
      (by omega) (by omega)]
    rfl
  | none =>
    simp only [scanDurF, h]
    rfl

theorem durMatches_nil : durMatches [] = [] := rfl

theorem durMatches_cons (c : Char) (cs : List Char) :
    durMatches (c :: cs) =
      match tryMatchAt (c :: cs) with
      | some (v, f, rest) => (v, f) :: durMatches rest
      | none => durMatches cs := by
  show durMatchesF (cs.length + 1 + 1) (c :: cs) = _
  cases h : tryMatchAt (c :: cs) with
  | some vfr =>
    obtain ⟨v, f, rest⟩ := vfr
    have hr := tryMatchAt_length h
    simp only [durMatchesF, h]
    rw [durMatchesF_congr (cs.length + 1) (rest.length + 1) rest
      (by omega) (by omega)]
    rfl
  | none =>
    simp only [durMatchesF, h]
    rfl

/-- Embedding of parseDuration from parseDuration.ts. -/
def parseDuration (s : String) : Nat :=
  scanDur s.data

theorem scanDur_eq_sum_aux :
    ∀ n (l : List Char), l.length ≤ n →
      scanDur l = ((durMatches l).map (fun p => p.1 * p.2)).sum := by
  intro n
  induction n with
  | zero =>
    intro l hl
    have : l = [] := List.eq_nil_of_length_eq_zero (by omega)
    subst this
    rfl
  | succ n ih =>
    intro l hl
    cases l with
    | nil => rfl
    | cons c cs =>
      simp only [List.length_cons] at hl
      cases h : tryMatchAt (c :: cs) with
      | some vfr =>
        obtain ⟨v, f, rest⟩ := vfr
        have hr := tryMatchAt_length h
        rw [scanDur_cons, durMatches_cons, h]
        simp only [List.map_cons, List.sum_cons]
        rw [ih rest (by omega)]
      | none =>
        rw [scanDur_cons, durMatches_cons, h]
        exact ih cs (by omega)

/-- parseDuration is exactly the sum, over the matches found by the scan, of
the matched integer times the matched unit factor. -/
theorem parseDuration_eq_sum (s : String) :
    parseDuration s = ((durMatches s.data).map (fun p => p.1 * p.2)).sum :=
  scanDur_eq_sum_aux s.data.length s.data le_rfl

theorem digit_val_range {c : Char} (h : c.isDigit = true) :
    48 ≤ c.toNat ∧ c.toNat ≤ 57 := by
  simp [Char.isDigit] at h
  exact h

theorem digit_toLower_self {c : Char} (h : c.isDigit = true) : c.toLower = c := by
  have hv := digit_val_range h
  unfold Char.toLower
  rw [if_neg]
  omega

theorem digit_toLower_ne {c p : Char} (h : c.isDigit = true)
    (hp : 58 ≤ p.toNat) : ¬ c.toLower = p := by
  have hv := digit_val_range h
  rw [digit_toLower_self h]
  intro he
  rw [he] at hv
  omega

/-- The unit tokens accepted by the regex, in source order. -/
def aliasToks : List (List Char) := durAlts.map (fun a => a.1)

/-- Conversion factor the scanner associates to a token standing alone. -/
def tokFactor (t : List Char) : Nat :=
  match findAlt t with
  | some (f, _) => f
  | none => 0

/-- Leftover characters of a token after the scanner consumed the first
matching alternative (for example the token written months leaves nths,
because the alternative mo is tried first). -/
def tokRest (t : List Char) : List Char :=
  match findAlt t with
  | some (_, r) => r
  | none => t

/-- Head-shape hypothesis on the input following a token: the next character,
if any, is a digit.  This holds for the tail of any well-formed duration
string, and rules out the one alternation ambiguity (the token m followed by
the letter o would have been read as a month). -/
def DigitHeadOrNil (r : List Char) : Prop :=
  r = [] ∨ ∃ c cs, r = c :: cs ∧ c.isDigit = true

theorem findAlt_tok {t : List Char} (ht : t ∈ aliasToks) (r : List Char)
    (hr : DigitHeadOrNil r) :
    findAlt (t ++ r) = some (tokFactor t, tokRest t ++ r) := by
  have hne : ∀ c cs, r = c :: cs → ¬ c.toLower = 'o' := by
    rcases hr with h | ⟨c, cs, rfl, hc⟩
    · intro c cs hcc
      rw [h] at hcc
      exact absurd hcc (by simp)
    · intro c0 cs0 hcc
      rw [List.cons.injEq] at hcc
      rw [← hcc.1]
      exact digit_toLower_ne hc (by decide)
  simp only [aliasToks, durAlts, List.map_cons, List.map_nil,
    List.mem_cons, List.not_mem_nil, or_false] at ht
  rcases ht with rfl | rfl | rfl | rfl | rfl | rfl | rfl | rfl | rfl | rfl |
    rfl | rfl | rfl | rfl | rfl | rfl | rfl | rfl | rfl | rfl
  case _ => simp [findAlt, findAltAux, durAlts, matchTok, tokFactor, tokRest]
  case _ => simp [findAlt, findAltAux, durAlts, matchTok, tokFactor, tokRest]
  case _ => simp [findAlt, findAltAux, durAlts, matchTok, tokFactor, tokRest]
  case _ => simp [findAlt, findAltAux, durAlts, matchTok, tokFactor, tokRest]
  case _ => simp [findAlt, findAltAux, durAlts, matchTok, tokFactor, tokRest]
  case _ => simp [findAlt, findAltAux, durAlts, matchTok, tokFactor, tokRest]
  case _ => simp [findAlt, findAltAux, durAlts, matchTok, tokFactor, tokRest]
  case _ => simp [findAlt, findAltAux, durAlts, matchTok, tokFactor, tokRest]
  case _ => simp [findAlt, findAltAux, durAlts, matchTok, tokFactor, tokRest]
  case _ => simp [findAlt, findAltAux, durAlts, matchTok, tokFactor, tokRest]
  case _ => simp [findAlt, findAltAux, durAlts, matchTok, tokFactor, tokRest]
  case _ => simp [findAlt, findAltAux, durAlts, matchTok, tokFactor, tokRest]
  case _ =>
    rcases hr with h | ⟨c, cs, hcc, hc⟩
    · subst h
      decide
    · subst hcc
      have h1 : ¬ c.toLower = 'o' := digit_toLower_ne hc (by decide)
      simp [findAlt, findAltAux, durAlts, matchTok, h1, tokFactor, tokRest]
  case _ => simp [findAlt, findAltAux, durAlts, matchTok, tokFactor, tokRest]
  case _ => simp [findAlt, findAltAux, durAlts, matchTok, tokFactor, tokRest]
  case _ => simp [findAlt, findAltAux, durAlts, matchTok, tokFactor, tokRest]
  case _ => simp [findAlt, findAltAux, durAlts, matchTok, tokFactor, tokRest]
  case _ => simp [findAlt, findAltAux, durAlts, matchTok, tokFactor, tokRest]
  case _ => simp [findAlt, findAltAux, durAlts, matchTok, tokFactor, tokRest]
  case _ => simp [findAlt, findAltAux, durAlts, matchTok, tokFactor, tokRest]

theorem takeWhile_all_cons {p : Char → Bool} :
    ∀ {xs : List Char}, (∀ c ∈ xs, p c = true) →
      ∀ {y : Char}, p y = false → ∀ (ys : List Char),
        List.takeWhile p (xs ++ y :: ys) = xs := by
  intro xs
  induction xs with
  | nil =>
    intro _ y hy ys
    simp [List.takeWhile, hy]
  | cons x xs ih =>
    intro hall y hy ys
    have hx : p x = true := hall x (by simp)
    simp only [List.cons_append, List.takeWhile, hx]
    have := ih (fun c hc => hall c (by simp [hc])) hy ys
    simpa using this

theorem dropWhile_all_cons {p : Char → Bool} :
    ∀ {xs : List Char}, (∀ c ∈ xs, p c = true) →
      ∀ {y : Char}, p y = false → ∀ (ys : List Char),
        List.dropWhile p (xs ++ y :: ys) = y :: ys := by
  intro xs
  induction xs with
  | nil =>
    intro _ y hy ys
    simp [List.dropWhile, hy]
  | cons x xs ih =>
    intro hall y hy ys
    have hx : p x = true := hall x (by simp)
    simp only [List.cons_append, List.dropWhile, hx]
    exact ih (fun c hc => hall c (by simp [hc])) hy ys

theorem tryMatchAt_block {d t r : List Char} {f : Nat} {rest : List Char}
    (hd : d ≠ []) (hdd : ∀ c ∈ d, c.isDigit = true)
    (hh : ∃ c0 t0, t = c0 :: t0 ∧ c0.isDigit = false ∧ isJsSpace c0 = false)
    (hfa : findAlt (t ++ r) = some (f, rest)) :
    tryMatchAt (d ++ (t ++ r)) = some (digitsToNat d, f, rest) := by
  obtain ⟨c0, t0, rfl, hc0, hs0⟩ := hh
  cases d with
  | nil => exact absurd rfl hd
  | cons x xs =>
    have hx : x.isDigit = true := hdd x (by simp)
    have e1 : List.takeWhile Char.isDigit ((x :: xs) ++ (c0 :: t0 ++ r))
        = x :: xs := takeWhile_all_cons hdd hc0 (t0 ++ r)
    have e2 : List.dropWhile Char.isDigit ((x :: xs) ++ (c0 :: t0 ++ r))
        = c0 :: t0 ++ r := dropWhile_all_cons hdd hc0 (t0 ++ r)
    have e3 : List.dropWhile isJsSpace (c0 :: (t0 ++ r)) = c0 :: (t0 ++ r) := by
      simp [List.dropWhile, hs0]
    simp only [List.cons_append, List.append_assoc] at e1 e2 hfa ⊢
    simp only [tryMatchAt, hx, if_true, e1, e2, e3, hfa]

theorem tryMatchAt_not_digit {c : Char} (hc : c.isDigit = false)
    (cs : List Char) : tryMatchAt (c :: cs) = none := by
  simp [tryMatchAt, hc]

theorem scanDur_skip {xs : List Char} (h : ∀ c ∈ xs, c.isDigit = false)
    (r : List Char) : scanDur (xs ++ r) = scanDur r := by
  induction xs with
  | nil => rfl
  | cons x xs ih =>
    have hx : x.isDigit = false := h x (by simp)
    rw [List.cons_append, scanDur_cons, tryMatchAt_not_digit hx]
    exact ih (fun c hc => h c (by simp [hc]))

/-- A well-formed duration string is a concatenation of blocks, each a
nonempty run of decimal digits followed by one of the supported unit
tokens. -/
def joinBlocks (bs : List (List Char × List Char)) : List Char :=
  (bs.map (fun b => b.1 ++ b.2)).flatten

/-- Validity of one block of a well-formed duration string. -/
def ValidBlock (b : List Char × List Char) : Prop :=
  b.1 ≠ [] ∧ (∀ c ∈ b.1, c.isDigit = true) ∧ b.2 ∈ aliasToks

instance (b : List Char × List Char) : Decidable (ValidBlock b) := by
  unfold ValidBlock
  infer_instance

theorem joinBlocks_head {bs : List (List Char × List Char)}
    (h : ∀ b ∈ bs, ValidBlock b) : DigitHeadOrNil (joinBlocks bs) := by
  cases bs with
  | nil => exact Or.inl rfl
  | cons b bs =>
    obtain ⟨hd, hdd, _⟩ := h b (by simp)
    obtain ⟨d, t⟩ := b
    cases d with
    | nil => exact absurd rfl hd
    | cons x xs =>
      refine Or.inr ⟨x, xs ++ t ++ joinBlocks bs, ?_, hdd x (by simp)⟩
      simp [joinBlocks]

theorem tok_head_shape {t : List Char} (ht : t ∈ aliasToks) :
    ∃ c0 t0, t = c0 :: t0 ∧ c0.isDigit = false ∧ isJsSpace c0 = false := by
  have hall : aliasToks.all (fun t =>
      match t with
      | [] => false
      | c :: _ => !c.isDigit && !isJsSpace c) = true := by decide
  have hb := List.all_eq_true.mp hall t ht
  cases t with
  | nil => simp at hb
  | cons c cs =>
    simp only [Bool.and_eq_true, Bool.not_eq_true'] at hb
    exact ⟨c, cs, rfl, hb.1, hb.2⟩

theorem tokRest_not_digit {t : List Char} (ht : t ∈ aliasToks) :
    ∀ c ∈ tokRest t, c.isDigit = false := by
  have hall : aliasToks.all (fun t =>
      (tokRest t).all (fun c => !c.isDigit)) = true := by decide
  have hb := List.all_eq_true.mp hall t ht
  intro c hc
  have := List.all_eq_true.mp hb c hc
  simpa using this

theorem scanDur_joinBlocks :
    ∀ (bs : List (List Char × List Char)), (∀ b ∈ bs, ValidBlock b) →
      scanDur (joinBlocks bs)
        = (bs.map (fun b => digitsToNat b.1 * tokFactor b.2)).sum := by
  intro bs
  induction bs with
  | nil => intro _; rfl
  | cons b bs ih =>
    intro hv
    obtain ⟨d, t⟩ := b
    obtain ⟨hd, hdd, htk⟩ := hv (d, t) (by simp)
    have hvrest : ∀ b ∈ bs, ValidBlock b := fun b hb => hv b (by simp [hb])
    have hhead := joinBlocks_head hvrest
    have hfa := findAlt_tok htk (joinBlocks bs) hhead
    have e0 : joinBlocks ((d, t) :: bs) = d ++ (t ++ joinBlocks bs) := by
      simp [joinBlocks]
    rw [e0]
    cases hdt : d ++ (t ++ joinBlocks bs) with
    | nil =>
      cases d with
      | nil => exact absurd rfl hd
      | cons x xs => simp at hdt
    | cons y ys =>
      rw [scanDur_cons]
      have hm := tryMatchAt_block hd hdd (tok_head_shape htk) hfa
      rw [hdt] at hm
      rw [hm]
      show digitsToNat d * tokFactor t + scanDur (tokRest t ++ joinBlocks bs)
          = _
      rw [scanDur_skip (tokRest_not_digit htk) (joinBlocks bs)]
      rw [ih hvrest]
      simp

/-- A string made only of supported integer-unit pairs, in the sense of the
testable properties of the specification. -/
def WellFormedDur (s : String) : Prop :=
  ∃ bs, s.data = joinBlocks bs ∧ ∀ b ∈ bs, ValidBlock b

/-! ## Model of the cache middleware (current cacheMiddleware of index.ts) -/

/-- JSON values, a fragment sufficient for the claims; JSON.parse and
JSON.stringify of the runtime are modelled on this fragment. -/
inductive JValue
  | jnull
  | jstr (s : String)
  | jnum (n : Nat)
deriving DecidableEq, Repr

/-- Model of JSON.stringify on the fragment (string bodies are assumed not to
need escaping). -/
def jsonStringify : JValue → String
  | JValue.jnull => "null"
  | JValue.jstr s => "\"" ++ s ++ "\""
  | JValue.jnum n => toString n

/-- Model of JSON.parse on the fragment; none models a thrown parse error
(corrupted cache entry). -/
def jsonParse (s : String) : Option JValue :=
  let l := s.data
  if l = ['n', 'u', 'l', 'l'] then some JValue.jnull
  else if 2 ≤ l.length ∧ l.head? = some '\"' ∧ l.getLast? = some '\"' then
    some (JValue.jstr (String.mk (l.drop 1).dropLast))
  else if l ≠ [] ∧ ∀ c ∈ l, c.isDigit then some (JValue.jnum (digitsToNat l))
  else none

/-- Runtime value of the per-route duration option: the validated schema
makes it a string, but the middleware also handles a numeric value and an
absent one (conf question-mark duration with a typeof switch). -/
inductive DurVal
  | str (s : String)
  | num (n : Int)
  | undef
deriving DecidableEq, Repr

/-- Per-route configuration as received by cacheMiddleware. -/
structure RouteConf where
  enabled : Bool
  cacheKey : Option String
  duration : DurVal
deriving DecidableEq, Repr

/-- Outcome of the zod safeParse of the global breezeCache configuration
(fields redisUrl, enabled with default true, excludedPaths, debug). -/
structure GlobalConf where
  redisUrl : String
  enabled : Bool
  excludedPaths : Option (List String)
  debug : Bool
deriving DecidableEq, Repr

/-- Outcome of one client.get call: a value (or null), or a thrown error
carrying a code. -/
inductive GetRes
  | ok (v : Option String)
  | err (code : String)
deriving DecidableEq, Repr

/-- Oracle for the fallible store operations of one request: the outcomes of
the first and (if reached) second get, and whether set or expire throw. -/
structure StoreOracle where
  get1 : GetRes
  get2 : GetRes
  setThrows : Bool
  expireThrows : Bool
deriving DecidableEq, Repr

/-- Observable events of a request, in order: client construction, the
res.json patch installation, store calls, header writes, and the call of the
downstream handler. -/
inductive Ev
  | openC (id : Nat) (exclusive : Bool)
  | patchC
  | getC (id : Nat) (key : String)
  | setC (id : Nat) (key : String) (val : String)
  | expireC (id : Nat) (key : String) (secs : Int)
  | closeC (id : Nat)
  | headerC (hname : String) (hval : String)
  | nextC
deriving DecidableEq, Repr

/-- State captured by the patched res.json and its cache capability: the
cacheHit flag and hit value, the cache key, the duration option, the client
the closure sees after any reconnect, the shouldCloseClient flag, and the
oracle outcomes for set and expire. -/
structure JsonPatch where
  cacheHit : Bool
  hitVal : Option JValue
  key : String
  dur : DurVal
  clientId : Nat
  shouldClose : Bool
  setThrows : Bool
  expireThrows : Bool
deriving DecidableEq, Repr

/-- Result of one middleware invocation: the event trace, whether next was
called, the installed patch (none when res.json was not patched), the initial
value of the alreadyCached flag, and the process-wide shared client slot
after the request. -/
structure MwOut where
  trace : List Ev
  nextCalled : Bool
  patch : Option JsonPatch
  commitInit : Bool
  sharedAfter : Option (Nat × String)
deriving DecidableEq, Repr

/-- Inputs of one middleware invocation: the per-route conf, the safeParse
outcome of the global config, the request url, the shared client slot (id and
url), the first fresh client id for this request, and the store oracle. -/
structure MwIn where
  conf : RouteConf
  g : Option GlobalConf
  url : String
  shared : Option (Nat × String)
  k : Nat
  oracle : StoreOracle
deriving DecidableEq, Repr

/-- TTL resolution of the cache capability: a string goes through
parseDuration and floor-division by 1000, a number is taken as seconds, an
absent value falls back to 60. -/
def resolveDurSecs : DurVal → Int
  | DurVal.str s => Int.ofNat (parseDuration s / 1000)
  | DurVal.num n => n
  | DurVal.undef => 60

/-- The acquisition test of the source: a shared client exists and its url
is the configured redis url. -/
def sharedMatches (shared : Option (Nat × String)) (u : String) : Bool :=
  match shared with
  | some (_, su) => su == u
  | none => false

/-- The excludedPaths test of the source. -/
def pathExcluded (gc : GlobalConf) (url : String) : Bool :=
  match gc.excludedPaths with
  | some ps => ps.any (fun p => url.startsWith p)
  | none => false

/-- Early pass-through: next is called, nothing else happens. -/
def mwPass (shared : Option (Nat × String)) : MwOut :=
  { trace := [Ev.nextC], nextCalled := true, patch := none,
    commitInit := false, sharedAfter := shared }

/-- The patch as installed on the miss side (cacheHit false). -/
def missPatch (i : MwIn) (cid : Nat) (sc : Bool) : JsonPatch :=
  { cacheHit := false, hitVal := none, key := i.url,
    dur := i.conf.duration, clientId := cid, shouldClose := sc,
    setThrows := i.oracle.setThrows, expireThrows := i.oracle.expireThrows }

def closedCode : String := "ERR_REDIS_CONNECTION_CLOSED"

/-- The code after a successful tryGetCache: the truthiness test on the
cached string, HIT handling (with the corruption catch of JSON.parse, which
fires after the cacheHit flags were already raised), then the final next()
call of the middleware. -/
def afterLookup (i : MwIn) (cid : Nat) (sc : Bool) (v : Option String)
    (evs : List Ev) (sh : Option (Nat × String)) : MwOut :=
  match v with
  | some s =>
    if s ≠ "" then
      match jsonParse s with
      | some jv =>
        { trace := evs ++ [Ev.headerC "X-BREEZEAPI-CACHE" "HIT"]
            ++ (if sc then [Ev.closeC cid] else []) ++ [Ev.nextC],
          nextCalled := true,
          patch := some { missPatch i cid sc with
            cacheHit := true, hitVal := some jv },
          commitInit := true, sharedAfter := sh }
      | none =>
        { trace := evs ++ [Ev.nextC], nextCalled := true,
          patch := some { missPatch i cid sc with
            cacheHit := true, hitVal := none },
          commitInit := true, sharedAfter := sh }
    else
      { trace := evs ++ [Ev.nextC], nextCalled := true,
        patch := some (missPatch i cid sc), commitInit := false,
        sharedAfter := sh }
  | none =>
      { trace := evs ++ [Ev.nextC], nextCalled := true,
        patch := some (missPatch i cid sc), commitInit := false,
        sharedAfter := sh }

/-- Embedding of the per-request body of cacheMiddleware (current version):
config validation and the three early pass-through checks, client
acquisition, the res.json patch (before any store call), tryGetCache with
its single reconnect-and-retry on a closed connection, the cached test, and
the final next() call. -/
def runMiddleware (i : MwIn) : MwOut :=
  match i.g with
  | none => mwPass i.shared
  | some gc =>
    if gc.redisUrl = "" then mwPass i.shared
    else if gc.enabled = false then mwPass i.shared
    else if pathExcluded gc i.url then mwPass i.shared
    else
      let sm := sharedMatches i.shared gc.redisUrl
      let cid0 := if sm then
          (match i.shared with | some (sid, _) => sid | none => i.k)
        else i.k
      let sc := !sm
      let evs0 := (if sm then [] else [Ev.openC i.k true]) ++ [Ev.patchC]
      match i.oracle.get1 with
      | GetRes.ok v =>
        afterLookup i cid0 sc v (evs0 ++ [Ev.getC cid0 i.url]) i.shared
      | GetRes.err code =>
        if code = closedCode then
          let closeEvs := if sc then [Ev.closeC cid0] else []
          let cid1 := if sc then i.k + 1 else i.k
          let openEvs := if sc then [Ev.openC (i.k + 1) true]
            else [Ev.openC i.k false]
          let sh1 := if sc then i.shared else some (i.k, gc.redisUrl)
          let evs1 := evs0 ++ [Ev.getC cid0 i.url] ++ closeEvs ++ openEvs
          match i.oracle.get2 with
          | GetRes.ok v =>
            afterLookup i cid1 sc v (evs1 ++ [Ev.getC cid1 i.url]) sh1
          | GetRes.err _ =>
            { trace := evs1 ++ [Ev.getC cid1 i.url]
                ++ (if sc then [Ev.closeC cid1] else []) ++ [Ev.nextC],
              nextCalled := true, patch := some (missPatch i cid1 sc),
              commitInit := false, sharedAfter := sh1 }
        else
          { trace := evs0 ++ [Ev.getC cid0 i.url]
              ++ (if sc then [Ev.closeC cid0] else []) ++ [Ev.nextC],
            nextCalled := true, patch := some (missPatch i cid0 sc),
            commitInit := false, sharedAfter := i.shared }

/-- The patched res.json as seen by the downstream handler: on a miss the
response carries the emitted body, on a hit it carries the cached value
regardless of the body (undefined, modelled none, when the cached entry was
corrupted). -/
def jsonCall (p : JsonPatch) (body : JValue) : Option JValue :=
  if p.cacheHit then p.hitVal else some body

/-- Result of one invocation of the cache capability. -/
structure CommitRes where
  state : Bool
  events : List Ev
  resp : Option JValue
deriving DecidableEq, Repr

/-- One invocation of the cache capability attached to the response: a pure
no-op on the hit branch; otherwise guarded by the alreadyCached flag, then
set, expire (skipped when set threw), close of a per-request client, and the
MISS header, always returning the same response value. -/
def commitOnce (p : JsonPatch) (body : JValue) (st : Bool) : CommitRes :=
  if p.cacheHit then { state := st, events := [], resp := jsonCall p body }
  else if st then { state := st, events := [], resp := jsonCall p body }
  else
    { state := true,
      events := [Ev.setC p.clientId p.key (jsonStringify body)]
        ++ (if p.setThrows then [] else
            [Ev.expireC p.clientId p.key (resolveDurSecs p.dur)])
        ++ (if p.shouldClose then [Ev.closeC p.clientId] else [])
        ++ [Ev.headerC "X-BREEZEAPI-CACHE" "MISS"],
      resp := jsonCall p body }

/-- n successive invocations of the cache capability from a given
alreadyCached state: final state and concatenated store events. -/
def commitIter (p : JsonPatch) (body : JValue) (st : Bool) : Nat → Bool × List Ev
  | 0 => (st, [])
  | n + 1 =>
    let prev := commitIter p body st n
    let r := commitOnce p body prev.1
    (r.state, prev.2 ++ r.events)

def isSetEv : Ev → Bool
  | Ev.setC _ _ _ => true
  | _ => false

def isGetEv : Ev → Bool
  | Ev.getC _ _ => true
  | _ => false

def isOpenEv : Ev → Bool
  | Ev.openC _ _ => true
  | _ => false

/-- Store calls, in the sense of the patch-before-lookup ordering guarantee. -/
def isStoreEv : Ev → Bool
  | Ev.getC _ _ => true
  | Ev.setC _ _ _ => true
  | Ev.expireC _ _ _ => true
  | Ev.closeC _ => true
  | _ => false

def setCount (t : List Ev) : Nat := t.countP isSetEv

def getCount (t : List Ev) : Nat := t.countP isGetEv

def openCount (t : List Ev) : Nat := t.countP isOpenEv

/-- No store call occurs before the res.json patch is installed. -/
def noStoreBeforePatch : List Ev → Bool
  | [] => true
  | e :: es =>
    if e = Ev.patchC then true else !isStoreEv e && noStoreBeforePatch es

/-- Raw per-route configuration object before validation (presence of each
field; zod would reject wrongly-typed members, so only presence matters
here). -/
structure RouteRaw where
  enabled : Option Bool
  cacheKey : Option String
  duration : Option String
deriving DecidableEq, Repr

/-- Per-route configuration after a successful cacheConfigSchema parse. -/
structure RouteConfV where
  enabled : Bool
  cacheKey : Option String
  duration : String
deriving DecidableEq, Repr

/-- Embedding of cacheConfigSchema.safeParse: enabled defaults to true,
cacheKey is optional, duration is a required string with no default; a raw
object without duration fails validation. -/
def parseRouteConf (r : RouteRaw) : Option RouteConfV :=
  match r.duration with
  | none => none
  | some d =>
    some { enabled := r.enabled.getD true, cacheKey := r.cacheKey,
           duration := d }

/-- Hypotheses under which the middleware reaches the store lookup: the
global config parses, its redis url is nonempty, caching is enabled, and the
request path is not excluded. -/
def ReachesLookup (i : MwIn) (gc : GlobalConf) : Prop :=
  i.g = some gc ∧ gc.redisUrl ≠ "" ∧ gc.enabled = true ∧
    pathExcluded gc i.url = false

instance (i : MwIn) (gc : GlobalConf) : Decidable (ReachesLookup i gc) := by
  unfold ReachesLookup
  infer_instance

theorem nsbp_patch (es : List Ev) :
    noStoreBeforePatch (Ev.patchC :: es) = true := rfl

theorem nsbp_skip {e : Ev} (h1 : e ≠ Ev.patchC) (h2 : isStoreEv e = false)
    (es : List Ev) : noStoreBeforePatch (e :: es) = noStoreBeforePatch es := by
  simp [noStoreBeforePatch, h1, h2]

theorem nsbp_shape {pre : List Ev} (hpre : ∀ e ∈ pre, isStoreEv e = false)
    (hp2 : ∀ e ∈ pre, e ≠ Ev.patchC) (rest : List Ev) :
    noStoreBeforePatch (pre ++ Ev.patchC :: rest) = true := by
  induction pre with
  | nil => exact nsbp_patch rest
  | cons e es ih =>
    rw [List.cons_append,
      nsbp_skip (hp2 e (by simp)) (hpre e (by simp))]
    exact ih (fun x hx => hpre x (by simp [hx]))
      (fun x hx => hp2 x (by simp [hx]))

theorem afterLookup_trace (i : MwIn) (cid : Nat) (sc : Bool)
    (v : Option String) (evs : List Ev) (sh : Option (Nat × String)) :
    ∃ tail, (afterLookup i cid sc v evs sh).trace = evs ++ tail := by
  unfold afterLookup
  cases v with
  | none => exact ⟨[Ev.nextC], rfl⟩
  | some s =>
    by_cases hs : s ≠ ""
    · cases hjp : jsonParse s with
      | some jv =>
        refine ⟨[Ev.headerC "X-BREEZEAPI-CACHE" "HIT"]
            ++ (if sc then [Ev.closeC cid] else []) ++ [Ev.nextC], ?_⟩
        simp [hs, hjp]
      | none =>
        refine ⟨[Ev.nextC], ?_⟩
        simp [hs, hjp]
    · refine ⟨[Ev.nextC], ?_⟩
      simp at hs
      simp [hs]

theorem afterLookup_next (i : MwIn) (cid : Nat) (sc : Bool)
    (v : Option String) (evs : List Ev) (sh : Option (Nat × String)) :
    (afterLookup i cid sc v evs sh).nextCalled = true := by
  unfold afterLookup
  cases v with
  | none => rfl
  | some s =>
    by_cases hs : s ≠ ""
    · cases hjp : jsonParse s with
      | some jv => simp [hs, hjp]
      | none => simp [hs, hjp]
    · simp at hs
      simp [hs]

/-- Identifier of the client acquired for the request (the shared client
when it matches the configured url, else a fresh per-request client). -/
def acqId (i : MwIn) (gc : GlobalConf) : Nat :=
  if sharedMatches i.shared gc.redisUrl then
    (match i.shared with | some (sid, _) => sid | none => i.k)
  else i.k

/-- The shouldCloseClient flag of the request. -/
def acqExcl (i : MwIn) (gc : GlobalConf) : Bool :=
  !sharedMatches i.shared gc.redisUrl

/-- Events up to and including the res.json patch installation. -/
def evs0Of (i : MwIn) (gc : GlobalConf) : List Ev :=
  (if sharedMatches i.shared gc.redisUrl then [] else [Ev.openC i.k true])
    ++ [Ev.patchC]

theorem run_eq_invalid (i : MwIn) (hg : i.g = none) :
    runMiddleware i = mwPass i.shared := by
  unfold runMiddleware
  rw [hg]

theorem run_eq_ok (i : MwIn) (gc : GlobalConf) (h : ReachesLookup i gc)
    (v : Option String) (hget1 : i.oracle.get1 = GetRes.ok v) :
    runMiddleware i = afterLookup i (acqId i gc) (acqExcl i gc) v
      (evs0Of i gc ++ [Ev.getC (acqId i gc) i.url]) i.shared := by
  obtain ⟨hg, hru, hen, hex⟩ := h
  unfold runMiddleware acqId acqExcl evs0Of
  rw [hg]
  simp only [hru, hen, hex, hget1, if_neg, if_pos, Bool.false_eq_true,
    if_false, ite_false, ite_true]
  rfl

theorem run_eq_err_other (i : MwIn) (gc : GlobalConf) (h : ReachesLookup i gc)
    (c : String) (hget1 : i.oracle.get1 = GetRes.err c)
    (hc : c ≠ closedCode) :
    runMiddleware i =
      { trace := (evs0Of i gc ++ [Ev.getC (acqId i gc) i.url])
          ++ (if acqExcl i gc then [Ev.closeC (acqId i gc)] else [])
          ++ [Ev.nextC],
        nextCalled := true,
        patch := some (missPatch i (acqId i gc) (acqExcl i gc)),
        commitInit := false, sharedAfter := i.shared } := by
  obtain ⟨hg, hru, hen, hex⟩ := h
  unfold runMiddleware acqId acqExcl evs0Of
  rw [hg]
  simp only [hru, hen, hex, hget1, hc, if_neg, if_pos, Bool.false_eq_true,
    if_false, ite_false, ite_true]
  simp [List.append_assoc]

theorem run_eq_err_closed_ok (i : MwIn) (gc : GlobalConf)
    (h : ReachesLookup i gc) (hget1 : i.oracle.get1 = GetRes.err closedCode)
    (v : Option String) (hget2 : i.oracle.get2 = GetRes.ok v) :
    runMiddleware i = afterLookup i
      (if acqExcl i gc then i.k + 1 else i.k) (acqExcl i gc) v
      ((evs0Of i gc ++ [Ev.getC (acqId i gc) i.url]
          ++ (if acqExcl i gc then [Ev.closeC (acqId i gc)] else [])
          ++ (if acqExcl i gc then [Ev.openC (i.k + 1) true]
              else [Ev.openC i.k false]))
        ++ [Ev.getC (if acqExcl i gc then i.k + 1 else i.k) i.url])
      (if acqExcl i gc then i.shared else some (i.k, gc.redisUrl)) := by
  obtain ⟨hg, hru, hen, hex⟩ := h
  unfold runMiddleware acqId acqExcl evs0Of
  rw [hg]
  simp only [hru, hen, hex, hget1, hget2, if_neg, if_pos,
    Bool.false_eq_true, if_false, ite_false, ite_true]
  rfl

theorem run_eq_err_closed_err (i : MwIn) (gc : GlobalConf)
    (h : ReachesLookup i gc) (hget1 : i.oracle.get1 = GetRes.err closedCode)
    (c2 : String) (hget2 : i.oracle.get2 = GetRes.err c2) :
    runMiddleware i =
      { trace := (evs0Of i gc ++ [Ev.getC (acqId i gc) i.url]
            ++ (if acqExcl i gc then [Ev.closeC (acqId i gc)] else [])
            ++ (if acqExcl i gc then [Ev.openC (i.k + 1) true]
                else [Ev.openC i.k false]))
          ++ [Ev.getC (if acqExcl i gc then i.k + 1 else i.k) i.url]
          ++ (if acqExcl i gc
              then [Ev.closeC (if acqExcl i gc then i.k + 1 else i.k)]
              else [])
          ++ [Ev.nextC],
        nextCalled := true,
        patch := some (missPatch i (if acqExcl i gc then i.k + 1 else i.k)
          (acqExcl i gc)),
        commitInit := false,
        sharedAfter := if acqExcl i gc then i.shared
          else some (i.k, gc.redisUrl) } := by
  obtain ⟨hg, hru, hen, hex⟩ := h
  unfold runMiddleware acqId acqExcl evs0Of
  rw [hg]
  simp only [hru, hen, hex, hget1, hget2, if_neg, if_pos,
    Bool.false_eq_true, if_false, ite_false, ite_true]
  simp [List.append_assoc]

theorem run_eq_early (i : MwIn) (gc : GlobalConf) (hg : i.g = some gc)
    (h : gc.redisUrl = "" ∨ gc.enabled = false ∨
      pathExcluded gc i.url = true) :
    runMiddleware i = mwPass i.shared := by
  unfold runMiddleware
  rw [hg]
  rcases h with h | h | h
  · simp [h]
  · by_cases h1 : gc.redisUrl = "" <;> simp [h1, h]
  · by_cases h1 : gc.redisUrl = ""
    · simp [h1]
    · by_cases h2 : gc.enabled = false <;> simp [h1, h2, h]

theorem nsbp_afterLookup (i : MwIn) (cid : Nat) (sc : Bool) (v : Option String)
    (pre mid : List Ev) (hpre : ∀ e ∈ pre, isStoreEv e = false ∧ e ≠ Ev.patchC)
    (sh : Option (Nat × String)) :
    noStoreBeforePatch
      ((afterLookup i cid sc v (pre ++ Ev.patchC :: mid) sh).trace) = true := by
  obtain ⟨tail, htr⟩ := afterLookup_trace i cid sc v (pre ++ Ev.patchC :: mid) sh
  rw [htr, List.append_assoc, List.cons_append]
  exact nsbp_shape (fun e he => (hpre e he).1) (fun e he => (hpre e he).2) _

theorem preOf_clean (i : MwIn) (gc : GlobalConf) :
    ∀ e ∈ (if sharedMatches i.shared gc.redisUrl then []
      else [Ev.openC i.k true]), isStoreEv e = false ∧ e ≠ Ev.patchC := by
  split <;> simp [isStoreEv]

theorem noStoreBeforePatch_run (i : MwIn) :
    noStoreBeforePatch (runMiddleware i).trace = true := by
  cases hg : i.g with
  | none => rw [run_eq_invalid i hg]; rfl
  | some gc =>
    by_cases h1 : gc.redisUrl = ""
    · rw [run_eq_early i gc hg (Or.inl h1)]; rfl
    · by_cases h2 : gc.enabled = false
      · rw [run_eq_early i gc hg (Or.inr (Or.inl h2))]; rfl
      · by_cases h3 : pathExcluded gc i.url
        · rw [run_eq_early i gc hg (Or.inr (Or.inr h3))]; rfl
        · have hr : ReachesLookup i gc :=
            ⟨hg, h1, by revert h2; cases gc.enabled <;> simp,
              by revert h3; cases pathExcluded gc i.url <;> simp⟩
          cases hget1 : i.oracle.get1 with
          | ok v =>
            rw [run_eq_ok i gc hr v hget1]
            unfold evs0Of
            rw [List.append_assoc, List.singleton_append]
            exact nsbp_afterLookup i _ _ v _ _ (preOf_clean i gc) _
          | err code =>
            by_cases hc : code = closedCode
            · subst hc
              cases hget2 : i.oracle.get2 with
              | ok v =>
                rw [run_eq_err_closed_ok i gc hr hget1 v hget2]
                unfold evs0Of
                simp only [List.append_assoc, List.singleton_append,
                  List.cons_append]
                exact nsbp_afterLookup i _ _ v _ _ (preOf_clean i gc) _
              | err c2 =>
                rw [run_eq_err_closed_err i gc hr hget1 c2 hget2]
                unfold evs0Of
                simp only [List.append_assoc, List.singleton_append,
                  List.cons_append]
                exact nsbp_shape (fun e he => (preOf_clean i gc e he).1)
                  (fun e he => (preOf_clean i gc e he).2) _
            · rw [run_eq_err_other i gc hr code hget1 hc]
              unfold evs0Of
              simp only [List.append_assoc, List.singleton_append,
                List.cons_append]
              exact nsbp_shape (fun e he => (preOf_clean i gc e he).1)
                (fun e he => (preOf_clean i gc e he).2) _

theorem afterLookup_miss_none (i : MwIn) (cid : Nat) (sc : Bool)
    (evs : List Ev) (sh : Option (Nat × String)) :
    afterLookup i cid sc none evs sh =
      { trace := evs ++ [Ev.nextC], nextCalled := true,
        patch := some (missPatch i cid sc), commitInit := false,
        sharedAfter := sh } := rfl

theorem afterLookup_miss_empty (i : MwIn) (cid : Nat) (sc : Bool)
    (evs : List Ev) (sh : Option (Nat × String)) :
    afterLookup i cid sc (some "") evs sh =
      { trace := evs ++ [Ev.nextC], nextCalled := true,
        patch := some (missPatch i cid sc), commitInit := false,
        sharedAfter := sh } := by
  unfold afterLookup
  simp

theorem afterLookup_hit (i : MwIn) (cid : Nat) (sc : Bool) {s : String}
    {v : JValue} (hs : s ≠ "") (hv : jsonParse s = some v)
    (evs : List Ev) (sh : Option (Nat × String)) :
    afterLookup i cid sc (some s) evs sh =
      { trace := evs ++ [Ev.headerC "X-BREEZEAPI-CACHE" "HIT"]
          ++ (if sc then [Ev.closeC cid] else []) ++ [Ev.nextC],
        nextCalled := true,
        patch := some { missPatch i cid sc with
          cacheHit := true, hitVal := some v },
        commitInit := true, sharedAfter := sh } := by
  unfold afterLookup
  simp [hs, hv]

theorem afterLookup_corrupt (i : MwIn) (cid : Nat) (sc : Bool) {s : String}
    (hs : s ≠ "") (hv : jsonParse s = none)
    (evs : List Ev) (sh : Option (Nat × String)) :
    afterLookup i cid sc (some s) evs sh =
      { trace := evs ++ [Ev.nextC], nextCalled := true,
        patch := some { missPatch i cid sc with
          cacheHit := true, hitVal := none },
        commitInit := true, sharedAfter := sh } := by
  unfold afterLookup
  simp [hs, hv]

/-- C7: parseDuration never fails (it is a total function of the input
string), equals the sum over all regex matches of the matched integer times
the fixed unit factor, and takes the specified values on the concrete
examples of the specification. -/
theorem claim_C7_parse_total_sum :
    (∀ s : String,
      parseDuration s = ((durMatches s.data).map (fun p => p.1 * p.2)).sum) ∧
    parseDuration "" = 0 ∧
    parseDuration "garbage" = 0 ∧
    parseDuration "5x" = 0 ∧
    parseDuration "1h" = 3600000 ∧
    parseDuration "2d" = 172800000 ∧
    parseDuration "1w2d3h" = (7 + 2) * 86400000 + 3 * 3600000 ∧
    parseDuration "1month" = 30 * 86400000 :=
  ⟨parseDuration_eq_sum, by decide, by decide, by decide, by decide,
    by decide, by decide, by decide⟩

/-- C9: on well-formed duration strings, parseDuration is additive over
string concatenation. -/
theorem claim_C9_parse_append (A B : String)
    (hA : WellFormedDur A) (hB : WellFormedDur B) :
    parseDuration (A ++ B) = parseDuration A + parseDuration B := by
  obtain ⟨as, ha, hva⟩ := hA
  obtain ⟨bs, hb, hvb⟩ := hB
  have hdata : (A ++ B).data = joinBlocks (as ++ bs) := by
    rw [String.data_append, ha, hb]
    simp [joinBlocks]
  have hv : ∀ b ∈ as ++ bs, ValidBlock b := by
    intro b hbmem
    rcases List.mem_append.mp hbmem with h | h
    · exact hva b h
    · exact hvb b h
  unfold parseDuration
  rw [hdata, ha, hb, scanDur_joinBlocks (as ++ bs) hv,
    scanDur_joinBlocks as hva, scanDur_joinBlocks bs hvb]
  simp

/-- Witness for C9 at the concrete strings 1h and 2d30min. -/
theorem claim_C9_parse_append_witness :
    WellFormedDur "1h" ∧ WellFormedDur "2d30min" ∧
    parseDuration ("1h" ++ "2d30min")
      = parseDuration "1h" + parseDuration "2d30min" := by
  have hA : WellFormedDur "1h" := ⟨[(['1'], ['h'])], by decide, by decide⟩
  have hB : WellFormedDur "2d30min" :=
    ⟨[(['2'], ['d']), (['3', '0'], ['m', 'i', 'n'])], by decide, by decide⟩
  exact ⟨hA, hB, claim_C9_parse_append "1h" "2d30min" hA hB⟩

/-- C8: the validated per-route schema requires duration with no default: a
raw per-route configuration without duration fails validation, and a
successful validation carries the given duration string through unchanged. -/
theorem claim_C8_duration_required (r : RouteRaw) :
    (r.duration = none → parseRouteConf r = none) ∧
    (∀ c, parseRouteConf r = some c → r.duration = some c.duration) := by
  constructor
  · intro h
    simp [parseRouteConf, h]
  · intro c hc
    cases hd : r.duration with
    | none => simp [parseRouteConf, hd] at hc
    | some d =>
      simp only [parseRouteConf, hd] at hc
      injection hc with hc
      subst hc
      rfl

/-- Witness for C8: a raw configuration without duration is rejected. -/
theorem claim_C8_duration_required_witness :
    parseRouteConf { enabled := some true, cacheKey := none, duration := none }
      = none :=
  (claim_C8_duration_required _).1 rfl

/-- C10: the middleware never reads the per-route enabled flag; two
configurations differing only in enabled produce identical observable
behavior (trace of lookups, headers, writes, handler invocation, and the
installed patch, hence also all later commit behavior). -/
theorem claim_C10_enabled_ignored (i : MwIn) (b : Bool) :
    runMiddleware { i with conf := { i.conf with enabled := b } }
      = runMiddleware i := rfl

/-- Global configuration used by the concrete evaluation inputs. -/
def gcEx : GlobalConf :=
  { redisUrl := "redis://h", enabled := true, excludedPaths := none,
    debug := false }

/-- Concrete input for the C2 evaluation: a custom cacheKey is configured. -/
def c2In : MwIn :=
  { conf :=
      { enabled := true, cacheKey := some "custom",
        duration := DurVal.str "1h" },
    g := some gcEx, url := "/u", shared := none, k := 0,
    oracle :=
      { get1 := GetRes.ok none, get2 := GetRes.ok none,
        setThrows := false, expireThrows := false } }

/-- C2 evaluated at a configuration carrying a custom cacheKey: the store
lookup uses the request url, the installed patch carries the request url as
its key, and the deferred write writes under the request url; the custom key
is never used. -/
theorem claim_C2_custom_key_ignored :
    c2In.conf.cacheKey = some "custom" ∧
    (runMiddleware c2In).trace
      = [Ev.openC 0 true, Ev.patchC, Ev.getC 0 "/u", Ev.nextC] ∧
    (runMiddleware c2In).patch = some (missPatch c2In 0 true) ∧
    (missPatch c2In 0 true).key = "/u" ∧
    (commitOnce (missPatch c2In 0 true) (JValue.jstr "b") false).events
      = [Ev.setC 0 "/u" "\"b\"", Ev.expireC 0 "/u" 3600, Ev.closeC 0,
         Ev.headerC "X-BREEZEAPI-CACHE" "MISS"] := by
  decide

/-- Concrete input for C1: the store holds a deserializable value. -/
def c1In : MwIn :=
  { conf :=
      { enabled := true, cacheKey := none, duration := DurVal.str "1h" },
    g := some gcEx, url := "/a", shared := none, k := 0,
    oracle :=
      { get1 := GetRes.ok (some "\"v\""), get2 := GetRes.ok none,
        setThrows := false, expireThrows := false } }

/-- C1 counterexample: a request whose lookup succeeds with a present,
deserializable value sets the HIT header but still invokes the downstream
handler; the middleware falls through to next() on the hit path, refuting
the part of the claim stating that next is never called. -/
theorem claim_C1_counterexample :
    c1In.oracle.get1 = GetRes.ok (some "\"v\"") ∧
    jsonParse "\"v\"" = some (JValue.jstr "v") ∧
    Ev.headerC "X-BREEZEAPI-CACHE" "HIT" ∈ (runMiddleware c1In).trace ∧
    Ev.nextC ∈ (runMiddleware c1In).trace ∧
    (runMiddleware c1In).nextCalled = true := by
  decide

/-- C1 amended: on a lookup success with a present, deserializable value the
middleware sets the HIT header, performs no store write, marks the request
committed, and the patched res.json returns exactly the stored deserialized
value regardless of the handler body, with a no-op commit; the downstream
handler is still invoked (next is called). -/
theorem claim_C1_hit_served (i : MwIn) (gc : GlobalConf) (s : String)
    (v : JValue) (hr : ReachesLookup i gc)
    (h1 : i.oracle.get1 = GetRes.ok (some s)) (hs : s ≠ "")
    (hv : jsonParse s = some v) :
    Ev.headerC "X-BREEZEAPI-CACHE" "HIT" ∈ (runMiddleware i).trace ∧
    (runMiddleware i).nextCalled = true ∧
    setCount (runMiddleware i).trace = 0 ∧
    (runMiddleware i).commitInit = true ∧
    ∃ p, (runMiddleware i).patch = some p ∧ p.cacheHit = true ∧
      p.hitVal = some v ∧ (∀ body, jsonCall p body = some v) ∧
      (∀ body st, commitOnce p body st
        = { state := st, events := [], resp := some v }) := by
  rw [run_eq_ok i gc hr (some s) h1, afterLookup_hit i _ _ hs hv]
  refine ⟨by simp, rfl, ?_, rfl, _, rfl, rfl, rfl, fun body => ?_, ?_⟩
  · unfold evs0Of acqId acqExcl
    cases hsm : sharedMatches i.shared gc.redisUrl <;>
      simp [setCount, List.countP_append, List.countP_cons, isSetEv]
  · simp [jsonCall]
  · intro body st
    simp [commitOnce, jsonCall]

/-- Witness for the amended C1 at the concrete input. -/
theorem claim_C1_hit_served_witness :
    Ev.headerC "X-BREEZEAPI-CACHE" "HIT" ∈ (runMiddleware c1In).trace ∧
    (runMiddleware c1In).nextCalled = true := by
  have h := claim_C1_hit_served c1In gcEx "\"v\"" (JValue.jstr "v")
    (by decide) rfl (by decide) (by decide)
  exact ⟨h.1, h.2.1⟩

/-- C3: the res.json patch is installed before any store call on every
request, and when the lookup fails (immediately with an unrecoverable code,
or after the exhausted single retry) the request still reaches the
downstream handler with a fresh miss patch installed, so the commit
capability is available on the handler res.json result and a normal response
carrying the handler body is produced. -/
theorem claim_C3_patch_before_lookup (i : MwIn) (gc : GlobalConf) :
    noStoreBeforePatch (runMiddleware i).trace = true ∧
    (ReachesLookup i gc →
      (∀ c, i.oracle.get1 = GetRes.err c → c ≠ closedCode →
        (runMiddleware i).nextCalled = true ∧
        ∃ p, (runMiddleware i).patch = some p ∧ p.cacheHit = false ∧
          ∀ body, jsonCall p body = some body) ∧
      (∀ c2, i.oracle.get1 = GetRes.err closedCode →
        i.oracle.get2 = GetRes.err c2 →
        (runMiddleware i).nextCalled = true ∧
        ∃ p, (runMiddleware i).patch = some p ∧ p.cacheHit = false ∧
          ∀ body, jsonCall p body = some body)) := by
  refine ⟨noStoreBeforePatch_run i, fun hr => ⟨?_, ?_⟩⟩
  · intro c h1 hc
    rw [run_eq_err_other i gc hr c h1 hc]
    exact ⟨rfl, missPatch i (acqId i gc) (acqExcl i gc), rfl, rfl,
      fun body => by simp [jsonCall, missPatch]⟩
  · intro c2 h1 h2
    rw [run_eq_err_closed_err i gc hr h1 c2 h2]
    exact ⟨rfl, _, rfl, rfl, fun body => by simp [jsonCall, missPatch]⟩

/-- Concrete input for the C3 witness: the lookup throws an unrecoverable
error. -/
def c3In : MwIn :=
  { conf :=
      { enabled := true, cacheKey := none, duration := DurVal.str "1h" },
    g := some gcEx, url := "/a", shared := none, k := 0,
    oracle :=
      { get1 := GetRes.err "EBOOM", get2 := GetRes.ok none,
        setThrows := false, expireThrows := false } }

/-- Witness for C3 at the concrete input. -/
theorem claim_C3_patch_before_lookup_witness :
    noStoreBeforePatch (runMiddleware c3In).trace = true ∧
    (runMiddleware c3In).nextCalled = true := by
  have h := claim_C3_patch_before_lookup c3In gcEx
  have h2 := (h.2 (by decide)).1 "EBOOM" rfl (by decide)
  exact ⟨h.1, h2.1⟩

/-- C4: a lookup failure with the connection-closed code triggers exactly
one reconnect (one extra client construction) and one retry (two gets in
total); if the retry also fails the request passes through to the handler
with no further retry; any other failure code passes through immediately
with a single get and no reconnect. -/
theorem claim_C4_single_retry (i : MwIn) (gc : GlobalConf)
    (hr : ReachesLookup i gc) :
    (∀ c2, i.oracle.get1 = GetRes.err closedCode →
      i.oracle.get2 = GetRes.err c2 →
      getCount (runMiddleware i).trace = 2 ∧
      openCount (runMiddleware i).trace
        = (if sharedMatches i.shared gc.redisUrl then 1 else 2) ∧
      (runMiddleware i).nextCalled = true ∧
      (runMiddleware i).patch.isSome = true) ∧
    (∀ c, i.oracle.get1 = GetRes.err c → c ≠ closedCode →
      getCount (runMiddleware i).trace = 1 ∧
      openCount (runMiddleware i).trace
        = (if sharedMatches i.shared gc.redisUrl then 0 else 1) ∧
      (runMiddleware i).nextCalled = true ∧
      (runMiddleware i).patch.isSome = true) := by
  constructor
  · intro c2 h1 h2
    rw [run_eq_err_closed_err i gc hr h1 c2 h2]
    unfold evs0Of acqId acqExcl
    cases hsm : sharedMatches i.shared gc.redisUrl <;>
      simp [getCount, openCount, List.countP_append, List.countP_cons,
        isGetEv, isOpenEv]
  · intro c h1 hc
    rw [run_eq_err_other i gc hr c h1 hc]
    unfold evs0Of acqId acqExcl
    cases hsm : sharedMatches i.shared gc.redisUrl <;>
      simp [getCount, openCount, List.countP_append, List.countP_cons,
        isGetEv, isOpenEv]

/-- Concrete input for the C4 witness: closed connection, failing retry. -/
def c4In : MwIn :=
  { conf :=
      { enabled := true, cacheKey := none, duration := DurVal.str "1h" },
    g := some gcEx, url := "/a", shared := none, k := 0,
    oracle :=
      { get1 := GetRes.err closedCode, get2 := GetRes.err "EAGAIN",
        setThrows := false, expireThrows := false } }

/-- Witness for C4 at the concrete input. -/
theorem claim_C4_single_retry_witness :
    getCount (runMiddleware c4In).trace = 2 ∧
    (runMiddleware c4In).nextCalled = true := by
  have h := (claim_C4_single_retry c4In gcEx (by decide)).1 "EAGAIN" rfl rfl
  exact ⟨h.1, h.2.2.1⟩

/-- C5: for a response produced by the patched res.json on a miss, the first
commit performs exactly one store write and flips the alreadyCached flag;
every later commit is a no-op returning the same response; in total exactly
one write occurs however many times commit is invoked. -/
theorem claim_C5_commit_idempotent (i : MwIn) (p : JsonPatch)
    (hp : (runMiddleware i).patch = some p) (hmiss : p.cacheHit = false)
    (body : JValue) :
    (∀ n, 1 ≤ n → (commitIter p body false n).1 = true ∧
      setCount (commitIter p body false n).2 = 1) ∧
    (∀ st, (commitOnce p body st).resp = jsonCall p body) ∧
    commitOnce p body true
      = { state := true, events := [], resp := jsonCall p body } := by
  have hbase : (commitIter p body false 1).1 = true ∧
      setCount (commitIter p body false 1).2 = 1 := by
    simp only [commitIter, commitOnce, hmiss, Bool.false_eq_true, if_false,
      ite_false]
    cases h3 : p.setThrows <;> cases h4 : p.shouldClose <;>
      simp [setCount, isSetEv, List.countP_append, List.countP_cons]
  have hsec : commitOnce p body true
      = { state := true, events := [], resp := jsonCall p body } := by
    simp [commitOnce, hmiss]
  refine ⟨?_, ?_, hsec⟩
  · intro n hn
    induction n with
    | zero => omega
    | succ m ih =>
      by_cases hm : 1 ≤ m
      · obtain ⟨ihs, ihc⟩ := ih hm
        have e : commitIter p body false (m + 1)
            = ((commitOnce p body (commitIter p body false m).1).state,
               (commitIter p body false m).2
                 ++ (commitOnce p body (commitIter p body false m).1).events)
            := rfl
        rw [e, ihs, hsec]
        refine ⟨rfl, ?_⟩
        show setCount ((commitIter p body false m).2 ++ []) = 1
        rw [List.append_nil]
        exact ihc
      · have hm0 : m = 0 := by omega
        subst hm0
        exact hbase
  · intro st
    unfold commitOnce
    split <;> try rfl
    split <;> rfl

/-- Concrete input for the C5 witness: a plain miss. -/
def c5In : MwIn :=
  { conf :=
      { enabled := true, cacheKey := none, duration := DurVal.str "1h" },
    g := some gcEx, url := "/a", shared := none, k := 0,
    oracle :=
      { get1 := GetRes.ok none, get2 := GetRes.ok none,
        setThrows := false, expireThrows := false } }

/-- Witness for C5 at the concrete input: two commits, one write. -/
theorem claim_C5_commit_idempotent_witness :
    (commitIter (missPatch c5In 0 true) (JValue.jstr "b") false 2).1 = true ∧
    setCount (commitIter (missPatch c5In 0 true) (JValue.jstr "b") false 2).2
      = 1 := by
  have h := claim_C5_commit_idempotent c5In (missPatch c5In 0 true)
    (by decide) rfl (JValue.jstr "b")
  exact h.1 2 (by omega)

theorem commitOnce_close_mem {p : JsonPatch} {body : JValue} {st : Bool}
    {id : Nat} (h : Ev.closeC id ∈ (commitOnce p body st).events) :
    p.cacheHit = false ∧ st = false ∧ p.shouldClose = true ∧
      id = p.clientId := by
  cases h1 : p.cacheHit with
  | true => simp [commitOnce, h1] at h
  | false =>
    cases h2 : st with
    | true => simp [commitOnce, h1, h2] at h
    | false =>
      cases h4 : p.shouldClose with
      | false =>
        cases h3 : p.setThrows <;> simp [commitOnce, h1, h2, h3, h4] at h
      | true =>
        refine ⟨rfl, rfl, rfl, ?_⟩
        cases h3 : p.setThrows <;> simp [commitOnce, h1, h2, h3, h4] at h <;>
          exact h

theorem trace_close_props (i : MwIn) (gc : GlobalConf)
    (hr : ReachesLookup i gc) :
    ∀ id, Ev.closeC id ∈ (runMiddleware i).trace →
      acqExcl i gc = true ∧ (id = i.k ∨ id = i.k + 1) ∧
      Ev.openC id true ∈ (runMiddleware i).trace := by
  have hleaf : ∀ (cid : Nat) (v : Option String) (evs : List Ev)
      (sh : Option (Nat × String)) (id : Nat),
      Ev.closeC id ∈ (afterLookup i cid (acqExcl i gc) v evs sh).trace →
      Ev.closeC id ∈ evs ∨ (acqExcl i gc = true ∧ id = cid) := by
    intro cid v evs sh id hmem
    cases v with
    | none =>
      rw [afterLookup_miss_none] at hmem
      simp at hmem
      exact Or.inl hmem
    | some s =>
      by_cases hse : s = ""
      · subst hse
        rw [afterLookup_miss_empty] at hmem
        simp at hmem
        exact Or.inl hmem
      · cases hjp : jsonParse s with
        | some jv =>
          rw [afterLookup_hit i _ _ hse hjp] at hmem
          simp at hmem
          rcases hmem with h | h
          · exact Or.inl h
          · cases hx : acqExcl i gc with
            | true => simp [hx] at h; exact Or.inr ⟨rfl, h⟩
            | false => simp [hx] at h
        | none =>
          rw [afterLookup_corrupt i _ _ hse hjp] at hmem
          simp at hmem
          exact Or.inl hmem
  intro id hmem
  cases hget1 : i.oracle.get1 with
  | ok v =>
    rw [run_eq_ok i gc hr v hget1] at hmem ⊢
    have := hleaf (acqId i gc) v _ i.shared id hmem
    obtain ⟨tail, htr⟩ := afterLookup_trace i (acqId i gc) (acqExcl i gc) v
      (evs0Of i gc ++ [Ev.getC (acqId i gc) i.url]) i.shared
    rw [htr]
    rcases this with h | ⟨hx, rfl⟩
    · cases hsm : sharedMatches i.shared gc.redisUrl <;>
        simp [evs0Of, hsm] at h
    · refine ⟨hx, ?_, ?_⟩
      · unfold acqId
        unfold acqExcl at hx
        cases hsm : sharedMatches i.shared gc.redisUrl
        · simp [hsm]
        · rw [hsm] at hx
          simp at hx
      · unfold acqId
        unfold acqExcl at hx
        cases hsm : sharedMatches i.shared gc.redisUrl
        · simp [evs0Of, hsm]
        · rw [hsm] at hx
          simp at hx
  | err code =>
    by_cases hc : code = closedCode
    · subst hc
      cases hget2 : i.oracle.get2 with
      | ok v =>
        rw [run_eq_err_closed_ok i gc hr hget1 v hget2] at hmem ⊢
        have := hleaf _ v _ _ id hmem
        obtain ⟨tail, htr⟩ := afterLookup_trace i
          (if acqExcl i gc then i.k + 1 else i.k) (acqExcl i gc) v
          ((evs0Of i gc ++ [Ev.getC (acqId i gc) i.url]
            ++ (if acqExcl i gc then [Ev.closeC (acqId i gc)] else [])
            ++ (if acqExcl i gc then [Ev.openC (i.k + 1) true]
                else [Ev.openC i.k false]))
            ++ [Ev.getC (if acqExcl i gc then i.k + 1 else i.k) i.url])
          (if acqExcl i gc then i.shared else some (i.k, gc.redisUrl))
        rw [htr]
        cases hsm : sharedMatches i.shared gc.redisUrl
        · simp only [acqExcl, acqId, evs0Of, hsm, Bool.not_false, if_true,
            ite_true, if_false, ite_false] at this ⊢
          rcases this with h | ⟨_, rfl⟩
          · simp at h
            subst h
            refine ⟨trivial, Or.inl rfl, ?_⟩
            simp
          · refine ⟨trivial, Or.inr rfl, ?_⟩
            simp
        · simp only [acqExcl, acqId, evs0Of, hsm, Bool.not_true, if_true,
            ite_true, if_false, ite_false] at this ⊢
          rcases this with h | ⟨h, _⟩
          · simp at h
          · simp at h
      | err c2 =>
        rw [run_eq_err_closed_err i gc hr hget1 c2 hget2] at hmem ⊢
        cases hsm : sharedMatches i.shared gc.redisUrl
        · simp only [acqExcl, acqId, evs0Of, hsm, Bool.not_false, if_true,
            ite_true, if_false, ite_false] at hmem ⊢
          simp at hmem
          rcases hmem with rfl | rfl
          · refine ⟨trivial, Or.inl rfl, by simp⟩
          · refine ⟨trivial, Or.inr rfl, by simp⟩
        · simp only [acqExcl, acqId, evs0Of, hsm, Bool.not_true, if_true,
            ite_true, if_false, ite_false] at hmem ⊢
          simp at hmem
    · rw [run_eq_err_other i gc hr code hget1 hc] at hmem ⊢
      cases hsm : sharedMatches i.shared gc.redisUrl
      · simp only [acqExcl, acqId, evs0Of, hsm, Bool.not_false, if_true,
          ite_true, if_false, ite_false] at hmem ⊢
        simp at hmem
        subst hmem
        refine ⟨trivial, Or.inl rfl, by simp⟩
      · simp only [acqExcl, acqId, evs0Of, hsm, Bool.not_true, if_true,
          ite_true, if_false, ite_false] at hmem ⊢
        simp at hmem

theorem afterLookup_patch_fields (i : MwIn) (cid : Nat) (sc : Bool)
    (v : Option String) (evs : List Ev) (sh : Option (Nat × String)) :
    ∃ p, (afterLookup i cid sc v evs sh).patch = some p ∧
      p.clientId = cid ∧ p.shouldClose = sc := by
  cases v with
  | none => exact ⟨_, rfl, rfl, rfl⟩
  | some s =>
    by_cases hse : s = ""
    · subst hse
      rw [afterLookup_miss_empty]
      exact ⟨_, rfl, rfl, rfl⟩
    · cases hjp : jsonParse s with
      | some jv =>
        rw [afterLookup_hit i _ _ hse hjp]
        exact ⟨_, rfl, rfl, rfl⟩
      | none =>
        rw [afterLookup_corrupt i _ _ hse hjp]
        exact ⟨_, rfl, rfl, rfl⟩

theorem patch_props (i : MwIn) (gc : GlobalConf) (hr : ReachesLookup i gc)
    (p : JsonPatch) (hp : (runMiddleware i).patch = some p) :
    p.shouldClose = acqExcl i gc ∧
    (p.shouldClose = true →
      Ev.openC p.clientId true ∈ (runMiddleware i).trace ∧
      i.k ≤ p.clientId) := by
  cases hget1 : i.oracle.get1 with
  | ok v =>
    rw [run_eq_ok i gc hr v hget1] at hp ⊢
    obtain ⟨p0, hp0, hcid, hsc⟩ := afterLookup_patch_fields i (acqId i gc)
      (acqExcl i gc) v (evs0Of i gc ++ [Ev.getC (acqId i gc) i.url]) i.shared
    rw [hp0] at hp
    injection hp with hp
    subst hp
    refine ⟨hsc, fun hx => ?_⟩
    rw [hsc] at hx
    obtain ⟨tail, htr⟩ := afterLookup_trace i (acqId i gc) (acqExcl i gc) v
      (evs0Of i gc ++ [Ev.getC (acqId i gc) i.url]) i.shared
    rw [htr, hcid]
    unfold acqExcl at hx
    cases hsm : sharedMatches i.shared gc.redisUrl
    · unfold acqId
      simp [evs0Of, hsm]
    · rw [hsm] at hx
      simp at hx
  | err code =>
    by_cases hc : code = closedCode
    · subst hc
      cases hget2 : i.oracle.get2 with
      | ok v =>
        rw [run_eq_err_closed_ok i gc hr hget1 v hget2] at hp ⊢
        obtain ⟨p0, hp0, hcid, hsc⟩ := afterLookup_patch_fields i
          (if acqExcl i gc then i.k + 1 else i.k) (acqExcl i gc) v _
          (if acqExcl i gc then i.shared else some (i.k, gc.redisUrl))
        rw [hp0] at hp
        injection hp with hp
        subst hp
        refine ⟨hsc, fun hx => ?_⟩
        rw [hsc] at hx
        obtain ⟨tail, htr⟩ := afterLookup_trace i
          (if acqExcl i gc then i.k + 1 else i.k) (acqExcl i gc) v
          ((evs0Of i gc ++ [Ev.getC (acqId i gc) i.url]
            ++ (if acqExcl i gc then [Ev.closeC (acqId i gc)] else [])
            ++ (if acqExcl i gc then [Ev.openC (i.k + 1) true]
                else [Ev.openC i.k false]))
            ++ [Ev.getC (if acqExcl i gc then i.k + 1 else i.k) i.url])
          (if acqExcl i gc then i.shared else some (i.k, gc.redisUrl))
        rw [htr, hcid, hx]
        simp only [if_true, ite_true]
        constructor
        · simp
        · omega
      | err c2 =>
        rw [run_eq_err_closed_err i gc hr hget1 c2 hget2] at hp ⊢
        injection hp with hp
        subst hp
        refine ⟨rfl, fun hx => ?_⟩
        simp only [missPatch] at hx ⊢
        rw [hx]
        simp only [if_true, ite_true]
        constructor
        · simp
        · omega
    · rw [run_eq_err_other i gc hr code hget1 hc] at hp ⊢
      injection hp with hp
      subst hp
      refine ⟨rfl, fun hx => ?_⟩
      simp only [missPatch] at hx ⊢
      rw [hx]
      unfold acqExcl at hx
      cases hsm : sharedMatches i.shared gc.redisUrl
      · unfold acqId
        simp [evs0Of, hsm]
      · rw [hsm] at hx
        simp at hx

/-- C6: no per-request code path closes the shared store connection; every
close in the middleware trace targets a client opened exclusively for this
request (and never the shared client id), and the same holds for the close
performed by the deferred commit. -/
theorem claim_C6_only_request_clients_closed (i : MwIn)
    (hk : ∀ sid surl, i.shared = some (sid, surl) → sid < i.k) :
    (∀ sid surl, i.shared = some (sid, surl) →
      Ev.closeC sid ∉ (runMiddleware i).trace) ∧
    (∀ id, Ev.closeC id ∈ (runMiddleware i).trace →
      Ev.openC id true ∈ (runMiddleware i).trace) ∧
    (∀ p body st id, (runMiddleware i).patch = some p →
      Ev.closeC id ∈ (commitOnce p body st).events →
      Ev.openC id true ∈ (runMiddleware i).trace ∧
      ∀ sid surl, i.shared = some (sid, surl) → id ≠ sid) := by
  by_cases hmain : ∃ gc, ReachesLookup i gc
  · obtain ⟨gc, hr⟩ := hmain
    refine ⟨?_, ?_, ?_⟩
    · intro sid surl hsh hmem
      obtain ⟨_, hid, _⟩ := trace_close_props i gc hr sid hmem
      have := hk sid surl hsh
      omega
    · intro id hmem
      exact (trace_close_props i gc hr id hmem).2.2
    · intro p body st id hp hcm
      obtain ⟨hch, hst, hsc, hid⟩ := commitOnce_close_mem hcm
      obtain ⟨hsc2, hopen⟩ := patch_props i gc hr p hp
      obtain ⟨homem, hk2⟩ := hopen hsc
      subst hid
      refine ⟨homem, fun sid surl hsh => ?_⟩
      have := hk sid surl hsh
      omega
  · have hpass : runMiddleware i = mwPass i.shared := by
      cases hg : i.g with
      | none => exact run_eq_invalid i hg
      | some gc =>
        by_cases h1 : gc.redisUrl = ""
        · exact run_eq_early i gc hg (Or.inl h1)
        · by_cases h2 : gc.enabled = false
          · exact run_eq_early i gc hg (Or.inr (Or.inl h2))
          · have hen : gc.enabled = true := by
              revert h2
              cases gc.enabled <;> simp
            have h3 : pathExcluded gc i.url = true := by
              by_contra h4
              exact hmain ⟨gc, hg, h1, hen,
                by revert h4; cases pathExcluded gc i.url <;> simp⟩
            exact run_eq_early i gc hg (Or.inr (Or.inr h3))
    rw [hpass]
    refine ⟨fun sid surl hsh => by simp [mwPass],
      fun id hmem => by simp [mwPass] at hmem,
      fun p body st id hp => by simp [mwPass] at hp⟩

/-- Concrete input for the C6 witness: a shared client exists for another
url, so a per-request client is created and closed on the hit. -/
def c6In : MwIn :=
  { conf :=
      { enabled := true, cacheKey := none, duration := DurVal.str "1h" },
    g := some gcEx, url := "/a", shared := some (3, "redis://other"),
    k := 10,
    oracle :=
      { get1 := GetRes.ok (some "\"v\""), get2 := GetRes.ok none,
        setThrows := false, expireThrows := false } }

/-- Witness for C6 at the concrete input: the shared client 3 is never
closed, and the client that is closed (10) was opened exclusively for this
request. -/
theorem claim_C6_only_request_clients_closed_witness :
    Ev.closeC 3 ∉ (runMiddleware c6In).trace ∧
    Ev.openC 10 true ∈ (runMiddleware c6In).trace := by
  have hk : ∀ sid surl, c6In.shared = some (sid, surl) → sid < c6In.k := by
    intro sid surl hsh
    have h2 : some ((3 : Nat), "redis://other") = some (sid, surl) := hsh
    injection h2 with h3
    rw [Prod.mk.injEq] at h3
    rw [← h3.1]
    decide
  have h := claim_C6_only_request_clients_closed c6In hk
  exact ⟨h.1 3 "redis://other" rfl, h.2.1 10 (by decide)⟩
